import Mathlib

/-
  Verification of the PBJ-Chess search engine.

  The repository contains a Monte-Carlo tree searcher with UCT selection
  (agent1.py / main.py, class MCTS over the abstract Node interface, with
  the concrete ChessNode adapter), and a depth-limited negamax searcher
  (agent2.py, class TyBotNM).

  The development below is a shallow embedding of this code:
  * the chess rules engine (python-chess) is outside the repository; it is
    abstracted as game-structure parameters (`NegaGame`, `Game`, the
    `result`/`turn`/`boardFen` fields of `CBoard`), exactly the capability
    surface the Python code reads;
  * Python floats that only ever hold exact small values (rewards, scores,
    100000.0, 1e4) are modelled as rationals, and Python `int()` as
    truncation toward zero (`pyInt`);
  * Python sets are modelled as lists whose order is the set's (arbitrary
    but fixed) iteration order; `set.pop()` takes the first element of that
    order, and `max(s, key=f)` takes the first maximizer;
  * sources of ambient randomness (`random.choice`, simulation playouts)
    and the real-valued UCT argmax are oracle parameters; where a claim
    needs a fact about them (e.g. `max` returns a member of the set) it is
    an explicit hypothesis.
-/

set_option maxHeartbeats 1600000

/-! ## Definitions: the shallow embedding of the source -/

/-- Python `int(q)` on an exact numeric value: truncation toward zero. -/
def pyInt (q : ℚ) : ℤ := if 0 ≤ q then ⌊q⌋ else ⌈q⌉

/-- The four possible values of python-chess `board.result()`:
`"*"` (ongoing), `"1-0"` (white), `"0-1"` (black), `"1/2-1/2"` (draw). -/
inductive GRes where
  | ongoing
  | white
  | black
  | draw
deriving DecidableEq

/-- The capability surface of a `chess.Board` that `TyBotNM` reads:
`board.result()`, `board.legal_moves` (in generation order), `board.push`
(move application; the source pushes and pops on one mutable board, which a
pure embedding renders as recursing on the pushed board), `board.turn`,
and the material/positional heuristic of `TyBotNM.eval` (lines 65-93 of
agent2.py) evaluated on an ongoing position.  The heuristic's internals
(material count from the FEN plus knight/king/pawn/center bonuses) are an
opaque score here: the claims below depend only on the terminal override
and on the depth adjustment, never on heuristic internals. -/
structure NegaGame (β M : Type) where
  result : β → GRes
  heuristic : β → ℚ
  legalMoves : β → List M
  push : β → M → β
  turn : β → Bool

/-- `TyBotNM.eval` (agent2.py lines 55-94): terminal results override the
heuristic (`"1/2-1/2"` ↦ 0, `"0-1"` ↦ -1e4, `"1-0"` ↦ 1e4); an ongoing
board gets the material/positional score. -/
def TyBotNM.eval {β M : Type} (g : NegaGame β M) (b : β) : ℚ :=
  match g.result b with
  | GRes.draw => 0
  | GRes.black => -10000
  | GRes.white => 10000
  | GRes.ongoing => g.heuristic b

/-- Result of one `negamax` call: the returned score, the list
`best_moves` of tying best moves (the source finally returns
`random.choice(best_moves)`, and `None` in the base case, rendered as the
empty list), and — as bookkeeping instrumentation that the other two
components never read — the number of loop iterations (moves examined)
performed in the whole subtree. -/
structure NMOut (M : Type) where
  value : ℚ
  best : List M
  visits : ℕ
deriving DecidableEq

/-- `TyBotNM.negamax` (agent2.py lines 104-126), translated clause by
clause.  The source guard `if depth == 0 or board.result() != '*'` is split
over the two depth patterns for structural recursion; in both branches the
returned score is `color * self.eval(board) - depth * 100`.  In the
recursive case the loop body is: recurse on the pushed board with
`depth-1, -color`, negate the `int()` of the returned score, append to
`best_moves` on a tie, reset `value`/`best_moves` on improvement.  The
commented-out alpha-beta lines of the source (123-125) are absent, exactly
as in the code that runs.  `visits` counts loop iterations. -/
def TyBotNM.negamax {β M : Type} (g : NegaGame β M) : ℕ → β → ℤ → NMOut M
  | 0 => fun b color => ⟨(color : ℚ) * TyBotNM.eval g b - ((0 : ℕ) : ℚ) * 100, [], 0⟩
  | d+1 => fun b color =>
    if g.result b ≠ GRes.ongoing then
      ⟨(color : ℚ) * TyBotNM.eval g b - ((d+1 : ℕ) : ℚ) * 100, [], 0⟩
    else
      (g.legalMoves b).foldl
        (fun acc m =>
          let sub := TyBotNM.negamax g d (g.push b m) (-color)
          let score : ℤ := -(pyInt sub.value)
          let acc1 : NMOut M :=
            if (score : ℚ) = acc.value then ⟨acc.value, acc.best ++ [m], acc.visits⟩ else acc
          let acc2 : NMOut M :=
            if (score : ℚ) > acc1.value then ⟨(score : ℚ), [m], acc1.visits⟩ else acc1
          ⟨acc2.value, acc2.best, acc2.visits + 1 + sub.visits⟩)
        ⟨-100000, [], 0⟩

/-- A depth-2 game with two moves at the root and two replies to each,
whose leaf heuristics (3 and 7 after move 1; -2 and 0 after move 2) force
an alpha-beta cutoff inside the second subtree.  States and moves share
labels; `push` moves to the label. -/
def pruneG : NegaGame ℕ ℕ where
  result := fun _ => GRes.ongoing
  heuristic := fun s => if s = 11 then 3 else if s = 12 then 7 else if s = 21 then -2 else 0
  legalMoves := fun s => if s = 0 then [1, 2] else if s = 1 then [11, 12] else if s = 2 then [21, 22] else []
  push := fun _ m => m
  turn := fun _ => true

/-- The loop body of the recursive case of `TyBotNM.negamax`, as a named
function (identical to the lambda inside the definition). -/
def nmStep {β M : Type} (g : NegaGame β M) (d : ℕ) (b : β) (color : ℤ)
    (acc : NMOut M) (m : M) : NMOut M :=
  let sub := TyBotNM.negamax g d (g.push b m) (-color)
  let score : ℤ := -(pyInt sub.value)
  let acc1 : NMOut M :=
    if (score : ℚ) = acc.value then ⟨acc.value, acc.best ++ [m], acc.visits⟩ else acc
  let acc2 : NMOut M :=
    if (score : ℚ) > acc1.value then ⟨(score : ℚ), [m], acc1.visits⟩ else acc1
  ⟨acc2.value, acc2.best, acc2.visits + 1 + sub.visits⟩

/-- The number of legal moves in the full depth-`d` game tree below `b`,
i.e. the moves an exhaustive depth-limited search examines. -/
def gameMoves {β M : Type} (g : NegaGame β M) : ℕ → β → ℕ
  | 0 => fun _ => 0
  | d+1 => fun b =>
      if g.result b ≠ GRes.ongoing then 0
      else ((g.legalMoves b).map (fun m => 1 + gameMoves g d (g.push b m))).sum

/-- The alpha-beta accumulator: running best value, tying best moves,
moves examined, the running lower bound alpha, and whether the cutoff
`alpha >= beta` has fired (after which remaining siblings are skipped). -/
structure ABAcc (M : Type) where
  value : ℚ
  best : List M
  visits : ℕ
  alpha : ℚ
  pruned : Bool

/-- Modelled from the spec: the spec's `negamax(position, depth, α, β, sign)`
of its AlphaBetaSearcher section, which claim C1 asserts the source code
implements.  Recursive case: for each legal move recurse with
`(depth-1, -β, -α, -sign)`, negate the returned score, collect tying best
moves, update `α := max(α, best value)`, and stop examining the remaining
sibling moves once `α ≥ β`.  `visits` counts the moves actually examined.
This definition follows the spec's words; it is the comparison point for
the source's `TyBotNM.negamax`, which the repository ships with these
alpha-beta steps commented out. -/
def negamaxAB {β M : Type} (g : NegaGame β M) : ℕ → β → ℚ → ℚ → ℤ → NMOut M
  | 0 => fun b _a _bet color => ⟨(color : ℚ) * TyBotNM.eval g b - ((0 : ℕ) : ℚ) * 100, [], 0⟩
  | d+1 => fun b a bet color =>
    if g.result b ≠ GRes.ongoing then
      ⟨(color : ℚ) * TyBotNM.eval g b - ((d+1 : ℕ) : ℚ) * 100, [], 0⟩
    else
      let r := (g.legalMoves b).foldl
        (fun (acc : ABAcc M) m =>
          if acc.pruned then acc
          else
            let sub := negamaxAB g d (g.push b m) (-bet) (-acc.alpha) (-color)
            let score : ℚ := -sub.value
            let acc1 : ABAcc M :=
              if score = acc.value then ⟨acc.value, acc.best ++ [m], acc.visits, acc.alpha, acc.pruned⟩
              else acc
            let acc2 : ABAcc M :=
              if score > acc1.value then ⟨score, [m], acc1.visits, acc1.alpha, acc1.pruned⟩
              else acc1
            let a2 : ℚ := max acc2.alpha acc2.value
            ⟨acc2.value, acc2.best, acc2.visits + 1 + sub.visits, a2, decide (a2 ≥ bet)⟩)
        ⟨-1000000000, [], 0, a, false⟩
      ⟨r.value, r.best, r.visits⟩

/-- A single-line forced win (move 10: immediate mate) against a forced win
three plies deep (move 20): the depth adjustment must prefer move 10. -/
def winG : NegaGame ℕ ℕ where
  result := fun s => if s = 10 then GRes.white else if s = 22 then GRes.white else GRes.ongoing
  heuristic := fun _ => 0
  legalMoves := fun s =>
    if s = 0 then [10, 20] else if s = 20 then [21] else if s = 21 then [22] else []
  push := fun _ m => m
  turn := fun _ => true

/-- A forced loss one reply deep (move 10) against a forced loss three
replies deep (move 20): the depth adjustment must prefer move 20. -/
def lossG : NegaGame ℕ ℕ where
  result := fun s => if s = 11 then GRes.black else if s = 23 then GRes.black else GRes.ongoing
  heuristic := fun _ => 0
  legalMoves := fun s =>
    if s = 0 then [10, 20] else if s = 10 then [11] else if s = 20 then [21]
    else if s = 21 then [22] else if s = 22 then [23] else []
  push := fun _ m => m
  turn := fun _ => true

/-- The slice of `chess.Board` state that `ChessNode`'s methods read: the
piece-placement field of the FEN (`board.board_fen()`), the side to move
(`board.turn`, `true` = white) and the result string (`board.result()`).
The full FEN determines all three, and `set_fen` restores them, so a
`CBoard` value stands for the board at a given FEN. -/
structure CBoard where
  boardFen : List Char
  turn : Bool
  result : String
deriving DecidableEq

/-- The values dict of agent1's `ChessNode.eval` (line 169):
`{'P': 1, 'N': 3, 'B': 3, 'R': 5, 'Q': 9, 'K': 1}`, with 0 standing for a
missing key (the code only looks up keys it has checked, or uppercased FEN
piece letters, which are always present). -/
def pieceValue (c : Char) : ℚ :=
  if c = 'P' then 1 else if c = 'N' then 3 else if c = 'B' then 3
  else if c = 'R' then 5 else if c = 'Q' then 9 else if c = 'K' then 1 else 0

/-- `c in values`: membership in the keys of the dict above. -/
def isPieceKey (c : Char) : Bool :=
  c = 'P' || c = 'N' || c = 'B' || c = 'R' || c = 'Q' || c = 'K'

/-- One step of the `for c in self.board.board_fen()` loop of agent1's
`ChessNode.eval` over the accumulator `(white, total)`: on a letter, add
`values[c]` to `white` when `c in values`, and always add
`values[c.upper()]` to `total` (on a letter whose uppercase is not a key
the Python dict lookup would raise; no FEN placement field contains one,
and the embedding adds the 0 default there). -/
def evalStep (acc : ℚ × ℚ) (c : Char) : ℚ × ℚ :=
  if c.isAlpha then
    ((if isPieceKey c then acc.1 + pieceValue c else acc.1), acc.2 + pieceValue c.toUpper)
  else acc

/-- `ChessNode.eval` (agent1.py lines 164-177): material ratio
`white / total` over the FEN placement field, returned as `1 - score` when
white is to move and `score` otherwise.  (On an empty placement field the
Python code would raise ZeroDivisionError; rational division returns 0
there, a case no FEN produces.) -/
def ChessNode.eval (b : CBoard) : ℚ :=
  let wt := b.boardFen.foldl evalStep (0, 0)
  let score := wt.1 / wt.2
  if b.turn then 1 - score else score

/-- `ChessNode.is_terminal` (agent1.py lines 161-162):
`board.result() != "*"`. -/
def ChessNode.isTerminal (b : CBoard) : Bool := b.result ≠ "*"

/-- `ChessNode.reward` (agent1.py lines 179-188; identical in main.py):
on a terminal board, 0.5 for `"1/2-1/2"` and 0 otherwise; on a
non-terminal board it falls through to `self.eval()`. -/
def ChessNode.reward (b : CBoard) : ℚ :=
  if ChessNode.isTerminal b then
    if b.result = "1/2-1/2" then 1/2 else 0
  else ChessNode.eval b

/-- The loop of `ChessNode.simulate` (agent1.py lines 145-159; main.py
caps at 10 instead of 7, hence the `cap` parameter whose remaining budget
is `rem = cap - count`).  `step k` is the oracle for iteration `k`'s
`board.push(random.choice(list(board.legal_moves)))`; `initial` is the
`initial_fen` captured on entry.  A non-terminal board is pushed and the
invert flag toggled; if the cap is hit the heuristic of the pushed board is
returned after `set_fen(initial_fen)`.  On a terminal board the loop exits:
the board is first restored to `initial_fen` and `self.reward()` is then
computed on that restored board, with the invert flag applied. -/
def simLoop (step : ℕ → CBoard → CBoard) (initial : CBoard) :
    ℕ → ℕ → CBoard → Bool → ℚ × CBoard
  | 0 => fun k b invert =>
      if ¬ ChessNode.isTerminal b then
        (ChessNode.eval (step k b), initial)
      else
        ((if invert then 1 - ChessNode.reward initial else ChessNode.reward initial), initial)
  | rem+1 => fun k b invert =>
      if ¬ ChessNode.isTerminal b then
        simLoop step initial rem (k+1) (step k b) (!invert)
      else
        ((if invert then 1 - ChessNode.reward initial else ChessNode.reward initial), initial)

/-- `ChessNode.simulate`: run the loop from the entry board with
`invert_reward = True`, `count = 0`, and `initial_fen` the entry board's
FEN.  The second component is the board state when the call returns. -/
def ChessNode.simulate (step : ℕ → CBoard → CBoard) (cap : ℕ) (b : CBoard) : ℚ × CBoard :=
  simLoop step b cap 0 b true

/-- The standard chess starting position: placement field, white to move,
result `"*"` (game ongoing). -/
def startBoard : CBoard :=
  ⟨['r','n','b','q','k','b','n','r','/','p','p','p','p','p','p','p','p','/','8','/','8','/',
    '8','/','8','/','P','P','P','P','P','P','P','P','/','R','N','B','Q','K','B','N','R'],
   true, "*"⟩

/-- The capability surface the MCTS engine and its chess driver read from a
game state: `find_children` (a Python set, rendered as the list of its
iteration order), `is_terminal`, the driver's `board.legal_moves` and the
node's `last_move` attribute, and a ply count `level` (for chess this is
determined by the FEN's turn and move counters; a move always increases it
by exactly one, which is the graded-game hypothesis of the theorems). -/
structure Game (σ M : Type) where
  findChildren : σ → List σ
  isTerminal : σ → Bool
  level : σ → ℕ
  legalMoves : σ → List M
  lastMove : σ → M

/-- The per-decision state of the `MCTS` class (agent1.py lines 17-21):
the defaultdict counters `Q` (total reward) and `N` (visit count), read as
0 at missing keys, and the `children` dict — its key set plus its value
function (meaningful on keys). -/
structure MTree (σ : Type) where
  Q : σ → ℚ
  N : σ → ℕ
  keys : List σ
  kids : σ → List σ

/-- The fresh tree a `MCTS()` constructor produces. -/
def emptyTree {σ : Type} : MTree σ := ⟨fun _ => 0, fun _ => 0, [], fun _ => []⟩

/-- `MCTS._expand` (agent1.py lines 64-67): no-op when `node` is already a
key of `children`; otherwise store `node.find_children()` as its entry. -/
def expand {σ M : Type} [DecidableEq σ] (G : Game σ M) (t : MTree σ) (node : σ) : MTree σ :=
  if node ∈ t.keys then t
  else ⟨t.Q, t.N, node :: t.keys, fun s => if s = node then G.findChildren node else t.kids s⟩

/-- One `N[node] += 1; Q[node] += reward` update of `_backpropagate`. -/
def bump {σ : Type} [DecidableEq σ] (t : MTree σ) (node : σ) (r : ℚ) : MTree σ :=
  ⟨fun s => if s = node then t.Q s + r else t.Q s,
   fun s => if s = node then t.N s + 1 else t.N s,
   t.keys, t.kids⟩

/-- The loop of `MCTS._backpropagate` over an explicit node list (the
source iterates `reversed(path)`), inverting the reward after each node:
`reward = 1 - reward`. -/
def backpropAux {σ : Type} [DecidableEq σ] : MTree σ → List σ → ℚ → MTree σ
  | t, [], _ => t
  | t, node :: rest, r => backpropAux (bump t node r) rest (1 - r)

/-- `MCTS._backpropagate` (agent1.py lines 77-82): walk the path from the
leaf back to the root, incrementing every `N` and adding the alternating
reward into every `Q`. -/
def backprop {σ : Type} [DecidableEq σ] (t : MTree σ) (path : List σ) (r : ℚ) : MTree σ :=
  backpropAux t path.reverse r

/-- `MCTS._uct_select` (agent1.py lines 84-98) with its failure modes made
explicit, `none` modelling the call raising: the `assert` that every child
is already expanded, `max` on an empty set, the `math.log(N[node])` domain
error when `N[node] = 0`, and the `ZeroDivisionError` in `Q[n]/N[n]` and
`log_N_vertex/N[n]` when some child has `N[n] = 0`.  When every check
passes, the result is the argmax of the real-valued UCT score over
`children[node]`; that argmax (`max(self.children[node], key=uct)`,
including the exploration weight) is the oracle `uctSel`, constrained in
the theorems only to return a member of the set — true of Python's `max`. -/
def uctSelect {σ : Type} [DecidableEq σ]
    (uctSel : MTree σ → σ → List σ → σ) (t : MTree σ) (node : σ) : Option σ :=
  if ¬ (∀ c ∈ t.kids node, c ∈ t.keys) then none
  else if t.kids node = [] then none
  else if t.N node = 0 then none
  else if ¬ (∀ c ∈ t.kids node, t.N c ≠ 0) then none
  else some (uctSel t node (t.kids node))

/-- Result of `_select`: the found path, or one of two failure modes —
`uctFail` when `_uct_select` raises, `fuelOut` when the embedding's
loop-iteration budget (Python's loop is unbounded) runs out. -/
inductive SelRes (σ : Type) where
  | ok : List σ → SelRes σ
  | uctFail : SelRes σ
  | fuelOut : SelRes σ

/-- The loop of `MCTS._select` (agent1.py lines 49-62): append the current
node to the path; stop if it is unexplored or terminal (not a key, or an
empty children entry); otherwise compute
`unexplored = children[node] - children.keys()` and, if non-empty, append
its popped element (the first of the set's iteration order) and stop; else
descend a layer through `_uct_select`. -/
def selectAux {σ : Type} [DecidableEq σ]
    (uctSel : MTree σ → σ → List σ → σ) (t : MTree σ) :
    ℕ → σ → List σ → SelRes σ
  | 0 => fun _ _ => SelRes.fuelOut
  | fuel+1 => fun node acc =>
      if node ∉ t.keys ∨ t.kids node = [] then SelRes.ok (acc ++ [node])
      else if (t.kids node).filter (fun c => c ∉ t.keys) ≠ [] then
        SelRes.ok (acc ++ [node]
          ++ [((t.kids node).filter (fun c => c ∉ t.keys)).headD node])
      else
        match uctSelect uctSel t node with
        | none => SelRes.uctFail
        | some next => selectAux uctSel t fuel next (acc ++ [node])

/-- Result of a rollout (or of a chain of rollouts): the updated tree, or
the propagated failure of `_select`. -/
inductive RollRes (σ : Type) where
  | ok : MTree σ → RollRes σ
  | uctFail : RollRes σ
  | fuelOut : RollRes σ

/-- `MCTS.do_rollout` (agent1.py lines 41-47): select a path from `node`,
take its last element as the leaf, expand the leaf, simulate (the rollout's
reward is the oracle value `reward`), and backpropagate along the path. -/
def do_rollout {σ M : Type} [DecidableEq σ] (G : Game σ M)
    (uctSel : MTree σ → σ → List σ → σ) (fuel : ℕ)
    (t : MTree σ) (reward : ℚ) (node : σ) : RollRes σ :=
  match selectAux uctSel t fuel node [] with
  | SelRes.fuelOut => RollRes.fuelOut
  | SelRes.uctFail => RollRes.uctFail
  | SelRes.ok path =>
      let leaf := path.getLastD node
      let t1 := expand G t leaf
      RollRes.ok (backprop t1 path reward)

/-- `n` iterations of the driver loop `while …: tree.do_rollout(root)`
(agent1.py lines 213-216) on a fresh `MCTS()` tree; the `k`-th rollout's
simulation reward is the oracle value `rew k`. -/
def rollouts {σ M : Type} [DecidableEq σ] (G : Game σ M)
    (uctSel : MTree σ → σ → List σ → σ) (fuel : ℕ) (rew : ℕ → ℚ) (root : σ) :
    ℕ → RollRes σ
  | 0 => RollRes.ok emptyTree
  | n+1 =>
      match rollouts G uctSel fuel rew root n with
      | RollRes.ok t => do_rollout G uctSel fuel t (rew n) root
      | e => e

/-- Python's `max(iterable, key=f)`: the first maximizer in iteration
order; `none` on an empty iterable (Python raises ValueError there). -/
def pymaxKey {σ : Type} (key : σ → WithBot ℚ) : List σ → Option σ
  | [] => none
  | x :: xs => some (xs.foldl (fun best y => if key y > key best then y else best) x)

/-- The local `score` function of `MCTS.choose` (agent1.py lines 31-34):
`float("-inf")` — the bottom of `WithBot ℚ` — for a node with `N[n] == 0`,
else the average reward `Q[n] / N[n]`. -/
def chooseScore {σ : Type} (t : MTree σ) (n : σ) : WithBot ℚ :=
  if t.N n = 0 then ⊥ else ((t.Q n / (t.N n : ℚ) : ℚ) : WithBot ℚ)

/-- Result of `MCTS.choose`: the chosen successor, or one of the source's
raise paths — the explicit `RuntimeError` on a terminal node; the
`AttributeError` of the unexpanded-node branch, whose
`node.find_random_child()` call names a method that no class in the
repository defines (the `Node` interface of agent1.py/main.py replaced the
original `find_random_child` operation with `simulate`, and `ChessNode`
does not implement it either); and the `ValueError` of `max` on an empty
children entry. -/
inductive ChooseRes (σ : Type) where
  | ok : σ → ChooseRes σ
  | terminalErr : ChooseRes σ
  | attributeErr : ChooseRes σ
  | emptyMaxErr : ChooseRes σ
deriving DecidableEq

/-- `MCTS.choose` (agent1.py lines 23-39): raises `RuntimeError` on a
terminal node; on a node that was never expanded it evaluates
`node.find_random_child()`, which raises `AttributeError` since no class in
the repository defines that method; otherwise it returns the first argmax
of `score` over `children[node]` (`max` raises on an empty children entry,
which only a terminal key can have). -/
def MCTS.choose {σ M : Type} [DecidableEq σ] (G : Game σ M)
    (t : MTree σ) (node : σ) : ChooseRes σ :=
  if G.isTerminal node then ChooseRes.terminalErr
  else if node ∉ t.keys then ChooseRes.attributeErr
  else
    match pymaxKey (chooseScore t) (t.kids node) with
    | some c => ChooseRes.ok c
    | none => ChooseRes.emptyMaxErr

/-- `TyBot.monte_carlo_tree_search` (agent1.py lines 209-218; main.py
lines 208-217 differs only in the exploration weight, which lives inside
the `uctSel` oracle): build a fresh tree, run rollouts until the wall-clock
deadline — rendered as the rollout budget `n` — and `choose` on the root.
The first component is the chosen node: `none` when `choose` raised, the
exception propagating to the caller.  The second is the rollout run
itself, so that statements can observe the search that was performed. -/
def monte_carlo_tree_search {σ M : Type} [DecidableEq σ] (G : Game σ M)
    (uctSel : MTree σ → σ → List σ → σ) (fuel : ℕ) (rew : ℕ → ℚ)
    (root : σ) (n : ℕ) : Option σ × RollRes σ :=
  match rollouts G uctSel fuel rew root n with
  | RollRes.ok t =>
      (match MCTS.choose G t root with
        | ChooseRes.ok c => some c
        | ChooseRes.terminalErr => none
        | ChooseRes.attributeErr => none
        | ChooseRes.emptyMaxErr => none,
       RollRes.ok t)
  | RollRes.uctFail => (none, RollRes.uctFail)
  | RollRes.fuelOut => (none, RollRes.fuelOut)

/-- `TyBot.move` (agent1.py lines 204-207): with exactly one legal move,
return it at once (`next(iter(legal_moves))` is the first legal move);
otherwise run the tree search and return the chosen child's `last_move`.
The second component records the search performed — `none` means no `MCTS`
object was ever built, the short-circuit path. -/
def TyBot.move {σ M : Type} [DecidableEq σ] (G : Game σ M)
    (uctSel : MTree σ → σ → List σ → σ) (fuel : ℕ) (rew : ℕ → ℚ)
    (b : σ) (n : ℕ) : Option M × Option (RollRes σ) :=
  if (G.legalMoves b).length = 1 then ((G.legalMoves b).head?, none)
  else
    let r := monte_carlo_tree_search G uctSel fuel rew b n
    (r.1.map G.lastMove, some r.2)

/-- `TyBot.move` as main.py defines it (lines 205-206): no single-move
short-circuit — the timed search loop always runs. -/
def TyBot.moveMain {σ M : Type} [DecidableEq σ] (G : Game σ M)
    (uctSel : MTree σ → σ → List σ → σ) (fuel : ℕ) (rew : ℕ → ℚ)
    (b : σ) (n : ℕ) : Option M × Option (RollRes σ) :=
  let r := monte_carlo_tree_search G uctSel fuel rew b n
  (r.1.map G.lastMove, some r.2)

/-- `TyBotNM.move` (agent2.py lines 128-133, the effective — second —
definition of `move` in the class body): with exactly one legal move return
`(69420, that move)` without searching; otherwise run `negamax` at the
configured depth with `color = 1 if board.turn else -1`.  As in
`TyBotNM.negamax`, the single returned move is rendered by the (singleton)
move list, and `visits = 0` records that no search ran. -/
def TyBotNM.move {β M : Type} (g : NegaGame β M) (depth : ℕ) (b : β) : NMOut M :=
  if (g.legalMoves b).length = 1 then ⟨69420, g.legalMoves b, 0⟩
  else TyBotNM.negamax g depth b (if g.turn b then 1 else -1)

/-- The graded-game contract the rollout theorems assume of the game
behind the engine.  For chess: children sets are Python sets, so they have
no duplicates; a legal move increases the ply count `level` by exactly one
(the FEN's side-to-move and move counters encode the ply); games end within
`bound` plies (python-chess `result()` declares seventy-five-move and
fivefold-repetition draws automatically, so game length is bounded); and
`find_children` is empty exactly on terminal positions (the abstract `Node`
interface's stated contract: `is_terminal` returns true iff the node has no
children). -/
structure GoodGame {σ M : Type} (G : Game σ M) (bound : ℕ) : Prop where
  nodupKids : ∀ s, (G.findChildren s).Nodup
  levSucc : ∀ s c, c ∈ G.findChildren s → G.level c = G.level s + 1
  levBound : ∀ s, bound ≤ G.level s → G.findChildren s = []
  termIff : ∀ s, G.findChildren s = [] ↔ G.isTerminal s = true

/-- The search-tree invariant after `n` rollouts from `root` on a fresh
tree: children entries hold exactly `find_children` of their key; every key
has been visited at least once; non-keys are unvisited; the root is visited
once per rollout; the root is a key iff at least one rollout ran; the tree
is empty before the first rollout; and the root's children hold `n - 1`
visits in total — the first rollout's path is `[root]` alone. -/
structure MInv {σ M : Type} (G : Game σ M) (root : σ) (t : MTree σ) (n : ℕ) : Prop where
  kidsEq : ∀ s ∈ t.keys, t.kids s = G.findChildren s
  keyPos : ∀ s ∈ t.keys, 1 ≤ t.N s
  nonkeyZero : ∀ s, s ∉ t.keys → t.N s = 0
  rootN : t.N root = n
  rootKey : root ∈ t.keys ↔ 1 ≤ n
  zeroKeys : n = 0 → t.keys = []
  childSum : 1 ≤ n → ((G.findChildren root).map t.N).sum = n - 1

/-- A two-move game: non-terminal root 0 at ply 0, terminal children 1 and
2 at ply 1.  Moves are labelled 101 and 102; a node's `last_move` is
`100 + node`. -/
def tinyG : Game ℕ ℕ where
  findChildren := fun s => if s = 0 then [1, 2] else []
  isTerminal := fun s => decide (s ≠ 0)
  level := fun s => if s = 0 then 0 else 1
  legalMoves := fun s => if s = 0 then [101, 102] else []
  lastMove := fun s => 100 + s

/-- A one-move game: non-terminal root 0 with the single terminal child 1,
reached by the single legal move 101. -/
def tiny2G : Game ℕ ℕ where
  findChildren := fun s => if s = 0 then [1] else []
  isTerminal := fun s => decide (s ≠ 0)
  level := fun s => if s = 0 then 0 else 1
  legalMoves := fun s => if s = 0 then [101] else []
  lastMove := fun s => 100 + s

/-- A concrete UCT-argmax oracle: the first element of the children set's
iteration order. -/
def selHead : MTree ℕ → ℕ → List ℕ → ℕ := fun _ _ l => l.headD 0

/-- A concrete simulation-reward oracle: every playout returns 1/2. -/
def rewHalf : ℕ → ℚ := fun _ => 1/2

/-- Observations for the C3 counterexample: the root's visit count, the sum
of its children's visit counts, and whether the root is a key of
`children`. -/
def c3obs (r : RollRes ℕ) : Option (ℕ × ℕ × Bool) :=
  match r with
  | RollRes.ok t => some (t.N 0, ((t.kids 0).map t.N).sum, decide (0 ∈ t.keys))
  | RollRes.uctFail => none
  | RollRes.fuelOut => none

/-- Observation for the C6 counterexample: after the rollouts, node 1 is a
key of `children`, it is terminal, and `choose(1)` raises (returns no
node). -/
def c6obs (r : RollRes ℕ) : Bool :=
  match r with
  | RollRes.ok t =>
      decide (1 ∈ t.keys) && tiny2G.isTerminal 1
        && decide (MCTS.choose tiny2G t 1 = ChooseRes.terminalErr)
  | RollRes.uctFail => false
  | RollRes.fuelOut => false

/-- A one-move `NegaGame` for the agent2 side of C2: the root 0 has the
single legal move 7; every position is ongoing. -/
def oneMoveNG : NegaGame ℕ ℕ where
  result := fun _ => GRes.ongoing
  heuristic := fun _ => 0
  legalMoves := fun s => if s = 0 then [7] else []
  push := fun _ m => m
  turn := fun _ => true

/-- Observation for the C2 counterexample: the root's visit count in the
tree that main.py's `TyBot.move` built — nonzero means a search ran. -/
def c2obs (r : Option (RollRes ℕ)) : ℕ :=
  match r with
  | some (RollRes.ok t) => t.N 0
  | some RollRes.uctFail => 0
  | some RollRes.fuelOut => 0
  | none => 0

/-! ## Theorems -/

theorem pyInt_intCast (n : ℤ) : pyInt (n : ℚ) = n := by
  unfold pyInt
  split
  · exact Int.floor_intCast n
  · exact Int.ceil_intCast n

theorem GRes_white_ne_ongoing : (GRes.white = GRes.ongoing) = False := eq_false (by decide)

theorem GRes_black_ne_ongoing : (GRes.black = GRes.ongoing) = False := eq_false (by decide)

theorem GRes_draw_ne_ongoing : (GRes.draw = GRes.ongoing) = False := eq_false (by decide)

theorem negamax_succ {β M : Type} (g : NegaGame β M) (d : ℕ) (b : β) (color : ℤ) :
    TyBotNM.negamax g (d+1) b color =
      if g.result b ≠ GRes.ongoing then
        ⟨(color : ℚ) * TyBotNM.eval g b - ((d+1 : ℕ) : ℚ) * 100, [], 0⟩
      else
        (g.legalMoves b).foldl (nmStep g d b color) ⟨-100000, [], 0⟩ := rfl

theorem nmStep_visits {β M : Type} (g : NegaGame β M) (d : ℕ) (b : β) (color : ℤ)
    (acc : NMOut M) (m : M) :
    (nmStep g d b color acc m).visits
      = acc.visits + (1 + (TyBotNM.negamax g d (g.push b m) (-color)).visits) := by
  simp only [nmStep]
  split <;> split <;> simp [Nat.add_assoc]

theorem foldl_nmStep_visits {β M : Type} (g : NegaGame β M) (d : ℕ) (b : β) (color : ℤ)
    (l : List M) : ∀ acc : NMOut M,
    (l.foldl (nmStep g d b color) acc).visits
      = acc.visits
        + (l.map (fun m => 1 + (TyBotNM.negamax g d (g.push b m) (-color)).visits)).sum := by
  induction l with
  | nil => intro acc; simp
  | cons m t ih =>
      intro acc
      rw [List.foldl_cons, ih, nmStep_visits]
      simp [Nat.add_assoc]

/-- C1, counterexample.  On the concrete depth-2 game `pruneG` the source's
`TyBotNM.negamax` examines all 6 moves of the tree, while the spec's
alpha-beta searcher (same evaluator, full window) cuts off after 5: at the
second root move's node, `α ≥ β` holds after its first reply, yet the
source still examines the remaining sibling.  Hence the source does not
"stop examining further sibling moves at this node as soon as alpha ≥
beta": it maintains no alpha-beta bounds at all (agent2.py lines 123-125
are commented out). -/
theorem C1_counterexample :
    (TyBotNM.negamax pruneG 2 0 1).visits = 6 ∧
    (negamaxAB pruneG 2 0 (-1000000000) 1000000000 1).visits = 5 ∧
    ¬ (TyBotNM.negamax pruneG 2 0 1).visits
        ≤ (negamaxAB pruneG 2 0 (-1000000000) 1000000000 1).visits := by
  refine ⟨?_, ?_, ?_⟩
  · norm_num [TyBotNM.negamax, TyBotNM.eval, pruneG, pyInt, Int.floor_neg, Int.ceil_neg]
  · norm_num [negamaxAB, TyBotNM.eval, pruneG, pyInt, Int.floor_neg, Int.ceil_neg]
  · norm_num [TyBotNM.negamax, negamaxAB, TyBotNM.eval, pruneG, pyInt, Int.floor_neg,
      Int.ceil_neg]

/-- C1 (amended).  The source's negamax performs no alpha-beta pruning (the
update of α and the `α ≥ β` cutoff are commented out in agent2.py): at
every node it examines every legal move, so for every game, depth, board
and color the number of moves examined equals the full move count of the
depth-limited game tree — exhaustive minimax enumeration. -/
theorem C1_negamax_exhaustive {β M : Type} (g : NegaGame β M) :
    ∀ (d : ℕ) (b : β) (color : ℤ),
      (TyBotNM.negamax g d b color).visits = gameMoves g d b := by
  intro d
  induction d with
  | zero => intro b color; rfl
  | succ d ih =>
      intro b color
      rw [negamax_succ]
      by_cases h : g.result b ≠ GRes.ongoing
      · simp [h, gameMoves]
      · simp only [h, if_false, gameMoves, foldl_nmStep_visits, ih]
        simp

/-- C5 (confirmed).  First conjunct: whenever `depth = 0` or the position
is terminal, `negamax` returns the score `color * eval(board) - depth*100`
(sign times static evaluation, adjusted by the depth-proportional term) and
no move (`best = []` renders the source's `None`).  Second and third
conjuncts: the adjustment breaks ties as seen from the root — in `winG`
(two winning lines, mate now vs mate in three plies) the root search at
depth 4 returns the immediate mate, move 10, with score 10000 + 300; in
`lossG` (two losing lines, mated in two plies vs in four) it returns the
longer defence, move 20, with score -10000 (against -10200 for the short
loss). -/
theorem C5_negamax_base_case :
    (∀ {β M : Type} (g : NegaGame β M) (d : ℕ) (b : β) (color : ℤ),
        d = 0 ∨ g.result b ≠ GRes.ongoing →
        TyBotNM.negamax g d b color
          = ⟨(color : ℚ) * TyBotNM.eval g b - (d : ℚ) * 100, [], 0⟩) ∧
    TyBotNM.negamax winG 4 0 1 = ⟨10300, [10], 4⟩ ∧
    TyBotNM.negamax lossG 4 0 1 = ⟨-10000, [20], 6⟩ := by
  refine ⟨?_, ?_, ?_⟩
  · intro β M g d b color h
    match d, h with
    | 0, _ => simp [TyBotNM.negamax]
    | d+1, Or.inr h => rw [negamax_succ, if_pos h]
  · norm_num [TyBotNM.negamax, TyBotNM.eval, winG, pyInt, Int.floor_neg, Int.ceil_neg,
      GRes_white_ne_ongoing]
  · norm_num [TyBotNM.negamax, TyBotNM.eval, lossG, pyInt, Int.floor_neg, Int.ceil_neg,
      GRes_black_ne_ongoing]

/-- Witness for C5: the base-case equation applied at the concrete terminal
position 10 of `winG` with remaining depth 3 and color -1. -/
theorem C5_witness :
    TyBotNM.negamax winG 3 10 (-1)
      = ⟨(-1 : ℤ) * TyBotNM.eval winG 10 - (3 : ℚ) * 100, [], 0⟩ :=
  C5_negamax_base_case.1 winG 3 10 (-1) (Or.inr (by decide))

theorem simLoop_snd (step : ℕ → CBoard → CBoard) (initial : CBoard) :
    ∀ (rem k : ℕ) (b : CBoard) (invert : Bool),
      (simLoop step initial rem k b invert).2 = initial := by
  intro rem
  induction rem with
  | zero =>
      intro k b invert
      simp only [simLoop]
      split <;> rfl
  | succ rem ih =>
      intro k b invert
      simp only [simLoop]
      split
      · exact ih (k+1) (step k b) (!invert)
      · rfl

/-- C10 (confirmed).  `ChessNode.simulate` restores the board it runs on:
for every move oracle, every cap (7 in agent1.py, 10 in main.py) and every
starting board, the board state on return equals the entry state — every
exit path of the loop runs `set_fen(initial_fen)` before returning, even
though the simulation pushes moves onto the same board while running. -/
theorem C10_simulate_preserves_fen (step : ℕ → CBoard → CBoard) (cap : ℕ) (b : CBoard) :
    (ChessNode.simulate step cap b).2 = b :=
  simLoop_snd step b cap 0 b true

/-- C9, counterexample.  The starting position is not terminal, yet
`ChessNode.reward` silently returns a value — the static evaluation, here
1/2 — instead of failing loudly: the `else` branch of `reward` falls back
to `self.eval()` (and `simulate` relies on exactly this fallback when it
calls `reward` on the restored, possibly non-terminal, initial board). -/
theorem C9_counterexample :
    ChessNode.isTerminal startBoard = false ∧
    ChessNode.reward startBoard = ChessNode.eval startBoard ∧
    ChessNode.reward startBoard = 1/2 := by
  have hterm : ChessNode.isTerminal startBoard = false := by decide
  have hval : ChessNode.eval startBoard = 1/2 := by
    set_option maxRecDepth 4000 in
    norm_num +decide [ChessNode.eval, startBoard, List.foldl, evalStep, pieceValue, isPieceKey]
  refine ⟨hterm, ?_, ?_⟩
  · simp [ChessNode.reward, hterm]
  · simp [ChessNode.reward, hterm, hval]

/-- C9 (amended).  On a terminal board `reward` returns 0.5 for a draw and
0 otherwise — a real in [0, 1] as claimed.  But on a non-terminal board it
does not fail loudly: it silently returns `ChessNode.eval` of the board. -/
theorem C9_reward_spec :
    (∀ b : CBoard, ChessNode.isTerminal b = true →
        (ChessNode.reward b = 1/2 ∨ ChessNode.reward b = 0) ∧
        0 ≤ ChessNode.reward b ∧ ChessNode.reward b ≤ 1) ∧
    (∀ b : CBoard, ChessNode.isTerminal b = false →
        ChessNode.reward b = ChessNode.eval b) := by
  constructor
  · intro b hb
    simp only [ChessNode.reward, hb, if_true]
    by_cases hd : b.result = "1/2-1/2"
    · simp [hd]; norm_num
    · simp [hd]
  · intro b hb
    simp [ChessNode.reward, hb]

/-- Witness for C9: the amended statement applied to a concrete drawn
terminal board and to the concrete non-terminal starting position. -/
theorem C9_witness :
    (ChessNode.reward ⟨['8'], false, "1/2-1/2"⟩ = 1/2 ∨
      ChessNode.reward ⟨['8'], false, "1/2-1/2"⟩ = 0) ∧
    ChessNode.reward startBoard = ChessNode.eval startBoard :=
  ⟨(C9_reward_spec.1 ⟨['8'], false, "1/2-1/2"⟩ (by decide)).1,
   C9_reward_spec.2 startBoard (by decide)⟩

theorem getLastD_getLast? {α : Type} : ∀ (l : List α) (d : α), l ≠ [] →
    l.getLast? = some (l.getLastD d) := by
  intro l d h
  cases l with
  | nil => exact absurd rfl h
  | cons a t => rfl

theorem backpropAux_keys {σ : Type} [DecidableEq σ] :
    ∀ (l : List σ) (t : MTree σ) (r : ℚ), (backpropAux t l r).keys = t.keys := by
  intro l
  induction l with
  | nil => intro t r; rfl
  | cons a rest ih => intro t r; exact ih (bump t a r) (1 - r)

theorem backpropAux_kids {σ : Type} [DecidableEq σ] :
    ∀ (l : List σ) (t : MTree σ) (r : ℚ), (backpropAux t l r).kids = t.kids := by
  intro l
  induction l with
  | nil => intro t r; rfl
  | cons a rest ih => intro t r; exact ih (bump t a r) (1 - r)

theorem backpropAux_N_not_mem {σ : Type} [DecidableEq σ] :
    ∀ (l : List σ) (t : MTree σ) (r : ℚ) (s : σ), s ∉ l →
      (backpropAux t l r).N s = t.N s := by
  intro l
  induction l with
  | nil => intro t r s _; rfl
  | cons a rest ih =>
      intro t r s hs
      have hsa : s ≠ a := fun h => hs (h ▸ List.mem_cons_self a rest)
      have hsr : s ∉ rest := fun h => hs (List.mem_cons_of_mem a h)
      rw [backpropAux, ih (bump t a r) (1 - r) s hsr]
      simp [bump, hsa]

theorem backpropAux_Q_not_mem {σ : Type} [DecidableEq σ] :
    ∀ (l : List σ) (t : MTree σ) (r : ℚ) (s : σ), s ∉ l →
      (backpropAux t l r).Q s = t.Q s := by
  intro l
  induction l with
  | nil => intro t r s _; rfl
  | cons a rest ih =>
      intro t r s hs
      have hsa : s ≠ a := fun h => hs (h ▸ List.mem_cons_self a rest)
      have hsr : s ∉ rest := fun h => hs (List.mem_cons_of_mem a h)
      rw [backpropAux, ih (bump t a r) (1 - r) s hsr]
      simp [bump, hsa]

theorem backpropAux_N {σ : Type} [DecidableEq σ] :
    ∀ (l : List σ), l.Nodup → ∀ (t : MTree σ) (r : ℚ) (s : σ),
      (backpropAux t l r).N s = t.N s + (if s ∈ l then 1 else 0) := by
  intro l
  induction l with
  | nil => intro _ t r s; simp [backpropAux]
  | cons a rest ih =>
      intro hnd t r s
      have hna : a ∉ rest := (List.nodup_cons.mp hnd).1
      have hndr : rest.Nodup := (List.nodup_cons.mp hnd).2
      rw [backpropAux]
      by_cases hsa : s = a
      · subst hsa
        rw [backpropAux_N_not_mem rest (bump t s r) (1 - r) s hna]
        simp [bump]
      · rw [ih hndr (bump t a r) (1 - r) s]
        simp [bump, hsa, List.mem_cons]

theorem backpropAux_Q_get {σ : Type} [DecidableEq σ] :
    ∀ (l : List σ), l.Nodup → ∀ (t : MTree σ) (r : ℚ) (j : ℕ) (hj : j < l.length),
      (backpropAux t l r).Q (l.get ⟨j, hj⟩)
        = t.Q (l.get ⟨j, hj⟩) + (if j % 2 = 0 then r else 1 - r) := by
  intro l
  induction l with
  | nil => intro _ t r j hj; exact absurd hj (by simp)
  | cons a rest ih =>
      intro hnd t r j hj
      have hna : a ∉ rest := (List.nodup_cons.mp hnd).1
      have hndr : rest.Nodup := (List.nodup_cons.mp hnd).2
      rw [backpropAux]
      cases j with
      | zero =>
          simp only [List.get]
          rw [backpropAux_Q_not_mem rest (bump t a r) (1 - r) a hna]
          simp [bump]
      | succ j =>
          have hj2 : j < rest.length := by simpa using hj
          have hget : (a :: rest).get ⟨j+1, hj⟩ = rest.get ⟨j, hj2⟩ := rfl
          rw [hget, ih hndr (bump t a r) (1 - r) j hj2]
          have hne : rest.get ⟨j, hj2⟩ ≠ a := by
            intro h
            exact hna (h ▸ rest.get_mem j hj2)
          have hbq : (bump t a r).Q (rest.get ⟨j, hj2⟩) = t.Q (rest.get ⟨j, hj2⟩) := by
            simp only [bump]
            rw [if_neg hne]
          rw [hbq]
          congr 1
          rcases Nat.even_or_odd j with he | ho
          · have h1 : j % 2 = 0 := Nat.even_iff.mp he
            have h2 : (j+1) % 2 = 1 := by omega
            simp [h1, h2]
          · have h1 : j % 2 = 1 := Nat.odd_iff.mp ho
            have h2 : (j+1) % 2 = 0 := by omega
            simp [h1, h2]

theorem backprop_N {σ : Type} [DecidableEq σ] (t : MTree σ) (p : List σ) (r : ℚ)
    (hnd : p.Nodup) (s : σ) :
    (backprop t p r).N s = t.N s + (if s ∈ p then 1 else 0) := by
  rw [backprop, backpropAux_N p.reverse (by simpa using hnd) t r s]
  simp

theorem backprop_keys {σ : Type} [DecidableEq σ] (t : MTree σ) (p : List σ) (r : ℚ) :
    (backprop t p r).keys = t.keys := backpropAux_keys p.reverse t r

theorem backprop_kids {σ : Type} [DecidableEq σ] (t : MTree σ) (p : List σ) (r : ℚ) :
    (backprop t p r).kids = t.kids := backpropAux_kids p.reverse t r

theorem pymax_foldl_mem {σ : Type} (key : σ → WithBot ℚ) :
    ∀ (xs : List σ) (x : σ),
      xs.foldl (fun best y => if key y > key best then y else best) x ∈ x :: xs := by
  intro xs
  induction xs with
  | nil => intro x; simp
  | cons y ys ih =>
      intro x
      rw [List.foldl_cons]
      rcases List.mem_cons.mp (ih (if key y > key x then y else x)) with h | h
      · rw [h]
        by_cases hc : key y > key x
        · rw [if_pos hc]
          exact List.mem_cons_of_mem x (List.mem_cons_self y ys)
        · rw [if_neg hc]
          exact List.mem_cons_self x (y :: ys)
      · exact List.mem_cons_of_mem x (List.mem_cons_of_mem y h)

theorem pymax_foldl_le {σ : Type} (key : σ → WithBot ℚ) :
    ∀ (xs : List σ) (x : σ) (z : σ), z ∈ x :: xs →
      key z ≤ key (xs.foldl (fun best y => if key y > key best then y else best) x) := by
  intro xs
  induction xs with
  | nil =>
      intro x z hz
      rcases List.mem_cons.mp hz with h | h
      · exact h ▸ le_refl _
      · cases h
  | cons y ys ih =>
      intro x z hz
      rw [List.foldl_cons]
      have hstart : key x ≤ key (if key y > key x then y else x) ∧
          key y ≤ key (if key y > key x then y else x) := by
        by_cases hc : key y > key x
        · rw [if_pos hc]
          exact ⟨le_of_lt hc, le_refl _⟩
        · rw [if_neg hc]
          exact ⟨le_refl _, le_of_not_lt hc⟩
      have hs0 : key (if key y > key x then y else x)
          ≤ key (ys.foldl (fun best y => if key y > key best then y else best)
              (if key y > key x then y else x)) :=
        ih (if key y > key x then y else x) (if key y > key x then y else x)
          (List.mem_cons_self _ ys)
      rcases List.mem_cons.mp hz with h | h
      · rw [h]
        exact le_trans hstart.1 hs0
      · rcases List.mem_cons.mp h with h2 | h2
        · rw [h2]
          exact le_trans hstart.2 hs0
        · exact ih (if key y > key x then y else x) z
            (List.mem_cons_of_mem _ h2)

theorem pymaxKey_spec {σ : Type} (key : σ → WithBot ℚ) (l : List σ) (h : l ≠ []) :
    ∃ c, pymaxKey key l = some c ∧ c ∈ l ∧ ∀ z ∈ l, key z ≤ key c := by
  cases l with
  | nil => exact absurd rfl h
  | cons x xs =>
      exact ⟨xs.foldl (fun best y => if key y > key best then y else best) x, rfl,
        pymax_foldl_mem key xs x, fun z hz => pymax_foldl_le key xs x z hz⟩

theorem sum_map_add_nat {σ : Type} (l : List σ) (f g : σ → ℕ) :
    (l.map (fun s => f s + g s)).sum = (l.map f).sum + (l.map g).sum := by
  induction l with
  | nil => rfl
  | cons a t ih => simp [ih]; omega

theorem sum_map_single {σ : Type} (l : List σ) (f : σ → ℕ) (a : σ)
    (hnd : l.Nodup) (ha : a ∈ l) (hfa : ∀ b ∈ l, b ≠ a → f b = 0) :
    (l.map f).sum = f a := by
  induction l with
  | nil => cases ha
  | cons x xs ih =>
      have hnx : x ∉ xs := (List.nodup_cons.mp hnd).1
      have hnd2 : xs.Nodup := (List.nodup_cons.mp hnd).2
      rcases List.mem_cons.mp ha with h | h
      · subst h
        have hz : (xs.map f).sum = 0 := by
          apply List.sum_eq_zero
          intro v hv
          rcases List.mem_map.mp hv with ⟨b, hb, rfl⟩
          exact hfa b (List.mem_cons_of_mem a hb) (fun hba => hnx (hba ▸ hb))
        simp [hz]
      · have hxa : x ≠ a := fun hxa => hnx (hxa ▸ h)
        have hx0 : f x = 0 := hfa x (List.mem_cons_self x xs) hxa
        simp [hx0]
        exact ih hnd2 h (fun b hb => hfa b (List.mem_cons_of_mem x hb))

theorem chain_pairwise_level {σ M : Type} (G : Game σ M) (bound : ℕ) (hG : GoodGame G bound)
    (p : List σ) (hp : List.Chain' (fun u v => v ∈ G.findChildren u) p) :
    List.Pairwise (fun u v => G.level u < G.level v) p := by
  haveI : IsTrans σ (fun u v => G.level u < G.level v) :=
    ⟨fun a b c h1 h2 => lt_trans h1 h2⟩
  refine List.chain'_iff_pairwise.mp ?_
  exact hp.imp (fun a b h => by rw [hG.levSucc _ _ h]; omega)

theorem pairwise_level_nodup {σ M : Type} (G : Game σ M) (p : List σ)
    (hpw : List.Pairwise (fun u v => G.level u < G.level v) p) : p.Nodup :=
  hpw.imp (fun h => by intro he; rw [he] at h; exact absurd h (lt_irrefl _))

theorem selectAux_ok {σ M : Type} [DecidableEq σ] (G : Game σ M) (bound : ℕ)
    (hG : GoodGame G bound)
    (uctSel : MTree σ → σ → List σ → σ)
    (huct : ∀ (t : MTree σ) (node : σ) (l : List σ), l ≠ [] → uctSel t node l ∈ l)
    (t : MTree σ)
    (hkids : ∀ s ∈ t.keys, t.kids s = G.findChildren s)
    (hN1 : ∀ s ∈ t.keys, 1 ≤ t.N s) :
    ∀ (fuel : ℕ), ∀ (node : σ) (acc : List σ),
      1 ≤ fuel → bound + 1 ≤ G.level node + fuel →
      ∃ p, selectAux uctSel t fuel node acc = SelRes.ok (acc ++ p) ∧
        p.head? = some node ∧
        List.Chain' (fun u v => v ∈ G.findChildren u) p ∧
        (∀ s ∈ p.dropLast, s ∈ t.keys) ∧
        (∀ leaf, p.getLast? = some leaf → leaf ∉ t.keys ∨ t.kids leaf = []) := by
  intro fuel
  induction fuel with
  | zero => intro node acc h1 _; omega
  | succ fuel ih =>
      intro node acc _ hlev
      by_cases h1 : node ∉ t.keys ∨ t.kids node = []
      · refine ⟨[node], ?_, rfl, List.chain'_singleton node, ?_, ?_⟩
        · simp only [selectAux]
          rw [if_pos h1]
        · intro s hs
          simp at hs
        · intro leaf hleaf
          have hl : node = leaf := by simpa using hleaf
          rw [← hl]
          exact h1
      · push_neg at h1
        obtain ⟨hkey, hkne⟩ := h1
        have hkfc : t.kids node = G.findChildren node := hkids node hkey
        by_cases hfil : (t.kids node).filter (fun c => c ∉ t.keys) ≠ []
        · -- an unexplored child exists: the path stops at the popped child
          set nn := ((t.kids node).filter (fun c => c ∉ t.keys)).headD node with hnn
          have hnnmem : nn ∈ (t.kids node).filter (fun c => c ∉ t.keys) := by
            rw [hnn]
            cases hc : (t.kids node).filter (fun c => c ∉ t.keys) with
            | nil => exact absurd hc hfil
            | cons z zs => simp
          have hnn1 : nn ∈ t.kids node := (List.mem_filter.mp hnnmem).1
          have hnn2 : nn ∉ t.keys := by
            have := (List.mem_filter.mp hnnmem).2
            simpa using this
          refine ⟨[node, nn], ?_, rfl, ?_, ?_, ?_⟩
          · simp only [selectAux]
            rw [if_neg (by push_neg; exact ⟨hkey, hkne⟩), if_pos hfil, ← hnn,
              List.append_assoc]
            rfl
          · have : nn ∈ G.findChildren node := by rw [← hkfc]; exact hnn1
            simp [List.chain'_cons, this]
          · intro s hs
            simp at hs
            rw [hs]
            exact hkey
          · intro leaf hleaf
            have hl : nn = leaf := by simpa using hleaf
            rw [← hl]
            exact Or.inl hnn2
        · -- every child explored: descend through _uct_select
          push_neg at hfil
          have hall : ∀ c ∈ t.kids node, c ∈ t.keys := by
            intro c hc
            by_contra hcc
            have : c ∈ (t.kids node).filter (fun c => c ∉ t.keys) := by
              rw [List.mem_filter]
              exact ⟨hc, by simpa using hcc⟩
            rw [hfil] at this
            cases this
          have huok : uctSelect uctSel t node = some (uctSel t node (t.kids node)) := by
            unfold uctSelect
            rw [if_neg (not_not_intro hall), if_neg hkne,
              if_neg (by have := hN1 node hkey; omega),
              if_neg (not_not_intro (fun c hc => by have := hN1 c (hall c hc); omega))]
          have hnext : uctSel t node (t.kids node) ∈ t.kids node := huct t node _ hkne
          have hnextfc : uctSel t node (t.kids node) ∈ G.findChildren node := by
            rw [← hkfc]
            exact hnext
          have hlev2 : G.level (uctSel t node (t.kids node)) = G.level node + 1 :=
            hG.levSucc _ _ hnextfc
          have hfcne : G.findChildren node ≠ [] := by rw [← hkfc]; exact hkne
          have hnb : G.level node < bound := by
            by_contra hge
            exact hfcne (hG.levBound node (by omega))
          obtain ⟨p, hp, hh, hch, hdl, hlast⟩ :=
            ih (uctSel t node (t.kids node)) (acc ++ [node]) (by omega) (by omega)
          have hpne : p ≠ [] := by
            intro h
            rw [h] at hh
            cases hh
          refine ⟨node :: p, ?_, rfl, ?_, ?_, ?_⟩
          · simp only [selectAux]
            rw [if_neg (by push_neg; exact ⟨hkey, hkne⟩), if_neg (not_not_intro hfil), huok]
            show selectAux uctSel t fuel (uctSel t node (t.kids node)) (acc ++ [node])
              = SelRes.ok (acc ++ node :: p)
            rw [hp, List.append_assoc]
            rfl
          · refine List.chain'_cons'.mpr ⟨?_, hch⟩
            intro y hy
            rw [hh] at hy
            have : uctSel t node (t.kids node) = y := by simpa using hy
            rw [← this]
            exact hnextfc
          · intro s hs
            cases p with
            | nil => exact absurd rfl hpne
            | cons q qs =>
                rw [List.dropLast_cons₂] at hs
                rcases List.mem_cons.mp hs with h | h
                · rw [h]; exact hkey
                · exact hdl s h
          · intro leaf hleaf
            cases p with
            | nil => exact absurd rfl hpne
            | cons q qs =>
                rw [List.getLast?_cons_cons] at hleaf
                exact hlast leaf hleaf

theorem expand_N {σ M : Type} [DecidableEq σ] (G : Game σ M) (t : MTree σ) (x : σ) :
    (expand G t x).N = t.N := by
  unfold expand
  split <;> rfl

theorem expand_keys {σ M : Type} [DecidableEq σ] (G : Game σ M) (t : MTree σ) (x s : σ) :
    s ∈ (expand G t x).keys ↔ s = x ∨ s ∈ t.keys := by
  unfold expand
  split
  · rename_i hx
    constructor
    · exact fun h => Or.inr h
    · rintro (rfl | h)
      · exact hx
      · exact h
  · simp [List.mem_cons]

theorem expand_kids_self {σ M : Type} [DecidableEq σ] (G : Game σ M) (t : MTree σ) (x : σ)
    (hx : x ∉ t.keys) : (expand G t x).kids x = G.findChildren x := by
  unfold expand
  rw [if_neg hx]
  simp

theorem expand_kids_other {σ M : Type} [DecidableEq σ] (G : Game σ M) (t : MTree σ) (x s : σ)
    (hs : s ≠ x) : (expand G t x).kids s = t.kids s := by
  unfold expand
  split
  · rfl
  · simp [hs]

theorem expand_kids_of_mem {σ M : Type} [DecidableEq σ] (G : Game σ M) (t : MTree σ) (x : σ)
    (hx : x ∈ t.keys) : (expand G t x).kids = t.kids := by
  unfold expand
  rw [if_pos hx]

theorem do_rollout_step {σ M : Type} [DecidableEq σ] (G : Game σ M) (bound : ℕ)
    (hG : GoodGame G bound)
    (uctSel : MTree σ → σ → List σ → σ)
    (huct : ∀ (t : MTree σ) (node : σ) (l : List σ), l ≠ [] → uctSel t node l ∈ l)
    (fuel : ℕ) (hfuel : bound + 1 ≤ fuel)
    (root : σ) (hroot : G.isTerminal root = false)
    (t : MTree σ) (n : ℕ) (hInv : MInv G root t n) (r : ℚ) :
    ∃ t2, do_rollout G uctSel fuel t r root = RollRes.ok t2 ∧ MInv G root t2 (n+1) := by
  have hfcne : G.findChildren root ≠ [] := by
    intro h
    have h2 := (hG.termIff root).mp h
    rw [hroot] at h2
    cases h2
  have hrb : G.level root < bound := by
    by_contra hge
    exact hfcne (hG.levBound root (by omega))
  obtain ⟨p, hp, hh, hch, hdl, hlast⟩ :=
    selectAux_ok G bound hG uctSel huct t hInv.kidsEq hInv.keyPos fuel root [] (by omega)
      (by omega)
  have hpne : p ≠ [] := by intro h; rw [h] at hh; cases hh
  obtain ⟨p', rfl⟩ : ∃ p', p = root :: p' := by
    cases p with
    | nil => exact absurd rfl hpne
    | cons a p' =>
        have ha : a = root := by simpa using hh
        exact ⟨p', by rw [ha]⟩
  have hp2 : selectAux uctSel t fuel root [] = SelRes.ok (root :: p') := by simpa using hp
  have hpw := chain_pairwise_level G bound hG _ hch
  have hnd := pairwise_level_nodup G _ hpw
  obtain ⟨leaf, hlastSome, hleafD⟩ :
      ∃ lf, (root :: p').getLast? = some lf ∧ (root :: p').getLastD root = lf :=
    ⟨(root :: p').getLastD root, getLastD_getLast? (root :: p') root (by simp), rfl⟩
  have hleafspec : leaf ∉ t.keys ∨ t.kids leaf = [] := hlast leaf hlastSome
  have hdecomp : (root :: p').dropLast ++ [leaf] = root :: p' :=
    List.dropLast_append_getLast? leaf (Option.mem_def.mpr hlastSome)
  have hleafmem : leaf ∈ root :: p' := by
    rw [← hdecomp]
    exact List.mem_append_right _ (List.mem_cons_self leaf [])
  have hmem_split : ∀ s, s ∈ root :: p' → s ∈ (root :: p').dropLast ∨ s = leaf := by
    intro s hs
    rw [← hdecomp] at hs
    rcases List.mem_append.mp hs with h | h
    · exact Or.inl h
    · right
      simpa using h
  have hN2 : ∀ s, (backprop (expand G t leaf) (root :: p') r).N s
      = t.N s + (if s ∈ root :: p' then 1 else 0) := by
    intro s
    rw [backprop_N _ _ _ hnd s, expand_N]
  have hkeys2 : ∀ s, s ∈ (backprop (expand G t leaf) (root :: p') r).keys
      ↔ s = leaf ∨ s ∈ t.keys := by
    intro s
    rw [backprop_keys]
    exact expand_keys G t leaf s
  refine ⟨backprop (expand G t leaf) (root :: p') r, ?_, ?_⟩
  · simp only [do_rollout]
    rw [hp2]
    show RollRes.ok (backprop (expand G t ((root :: p').getLastD root)) (root :: p') r)
      = RollRes.ok (backprop (expand G t leaf) (root :: p') r)
    rw [hleafD]
  · constructor
    -- kidsEq
    · intro s hs
      rw [backprop_kids]
      by_cases hsl : s = leaf
      · rw [hsl]
        by_cases hlk : leaf ∈ t.keys
        · rw [expand_kids_of_mem G t leaf hlk]
          exact hInv.kidsEq leaf hlk
        · rw [expand_kids_self G t leaf hlk]
      · have hsk : s ∈ t.keys := by
          rcases (hkeys2 s).mp hs with h2 | h2
          · exact absurd h2 hsl
          · exact h2
        rw [expand_kids_other G t leaf s hsl]
        exact hInv.kidsEq s hsk
    -- keyPos
    · intro s hs
      rw [hN2 s]
      by_cases hsl : s = leaf
      · rw [hsl, if_pos hleafmem]
        omega
      · have hsk : s ∈ t.keys := by
          rcases (hkeys2 s).mp hs with h2 | h2
          · exact absurd h2 hsl
          · exact h2
        have := hInv.keyPos s hsk
        split <;> omega
    -- nonkeyZero
    · intro s hs
      rw [hkeys2 s] at hs
      push_neg at hs
      rw [hN2 s]
      have hnp : s ∉ root :: p' := by
        intro hmem
        rcases hmem_split s hmem with h | h
        · exact absurd (hdl s h) hs.2
        · exact absurd h hs.1
      rw [if_neg hnp]
      have := hInv.nonkeyZero s hs.2
      omega
    -- rootN
    · rw [hN2 root, if_pos (List.mem_cons_self root p'), hInv.rootN]
    -- rootKey
    · constructor
      · intro _
        omega
      · intro _
        rw [hkeys2 root]
        cases p' with
        | nil =>
            left
            rw [← hleafD]
            rfl
        | cons q qs =>
            right
            refine hdl root ?_
            rw [List.dropLast_cons₂]
            exact List.mem_cons_self root _
    -- zeroKeys
    · intro h
      exact absurd h (Nat.succ_ne_zero n)
    -- childSum
    · intro _
      have hmapeq : (G.findChildren root).map (backprop (expand G t leaf) (root :: p') r).N
          = (G.findChildren root).map (fun c => t.N c + (if c ∈ root :: p' then 1 else 0)) :=
        List.map_congr_left (fun c _ => hN2 c)
      rw [hmapeq, sum_map_add_nat]
      have hroot_notin_fc : root ∉ G.findChildren root := by
        intro h
        have := hG.levSucc root root h
        omega
      by_cases hn : 1 ≤ n
      · -- at least one earlier rollout: the root is expanded and the path descends
        have hrk : root ∈ t.keys := hInv.rootKey.mpr hn
        have hkr : t.kids root = G.findChildren root := hInv.kidsEq root hrk
        obtain ⟨c1, p'', rfl⟩ : ∃ c1 p'', p' = c1 :: p'' := by
          cases p' with
          | nil =>
              exfalso
              have hlr : leaf = root := by rw [← hleafD]; rfl
              rcases hleafspec with h | h
              · rw [hlr] at h
                exact absurd hrk h
              · rw [hlr, hkr] at h
                exact absurd h hfcne
          | cons c1 p'' => exact ⟨c1, p'', rfl⟩
        have hc1 : c1 ∈ G.findChildren root := (List.chain'_cons.mp hch).1
        have hsum1 : ((G.findChildren root).map
            (fun c => if c ∈ root :: c1 :: p'' then 1 else 0)).sum = 1 := by
          rw [sum_map_single (G.findChildren root) _ c1 (hG.nodupKids root) hc1 ?_]
          · rw [if_pos (List.mem_cons_of_mem root (List.mem_cons_self c1 p''))]
          · intro b hb hbc
            rw [if_neg ?_]
            have hlevb : G.level b = G.level root + 1 := hG.levSucc root b hb
            intro hmem
            rcases List.mem_cons.mp hmem with h | h
            · rw [h] at hlevb
              omega
            · rcases List.mem_cons.mp h with h2 | h2
              · exact hbc h2
              · have hlevc1 : G.level c1 = G.level root + 1 := hG.levSucc root c1 hc1
                have := (List.pairwise_cons.mp
                  (List.pairwise_cons.mp hpw).2).1 b h2
                omega
        rw [hsum1, hInv.childSum hn]
        omega
      · -- the first rollout: the fresh tree, path [root]
        have hn0 : n = 0 := by omega
        have hke : t.keys = [] := hInv.zeroKeys hn0
        obtain rfl : p' = [] := by
          cases p' with
          | nil => rfl
          | cons q qs =>
              exfalso
              have hmem : root ∈ t.keys := by
                refine hdl root ?_
                rw [List.dropLast_cons₂]
                exact List.mem_cons_self root _
              rw [hke] at hmem
              cases hmem
        have hz1 : ((G.findChildren root).map t.N).sum = 0 := by
          apply List.sum_eq_zero
          intro v hv
          rcases List.mem_map.mp hv with ⟨c, hc, rfl⟩
          exact hInv.nonkeyZero c (by rw [hke]; exact List.not_mem_nil c)
        have hz2 : ((G.findChildren root).map
            (fun c => if c ∈ [root] then 1 else 0)).sum = 0 := by
          apply List.sum_eq_zero
          intro v hv
          rcases List.mem_map.mp hv with ⟨c, hc, rfl⟩
          rw [if_neg ?_]
          intro hmem
          have hcr : c = root := by simpa using hmem
          rw [hcr] at hc
          exact hroot_notin_fc hc
        rw [hz1, hz2]
        omega

theorem rollouts_inv {σ M : Type} [DecidableEq σ] (G : Game σ M) (bound : ℕ)
    (hG : GoodGame G bound)
    (uctSel : MTree σ → σ → List σ → σ)
    (huct : ∀ (t : MTree σ) (node : σ) (l : List σ), l ≠ [] → uctSel t node l ∈ l)
    (fuel : ℕ) (hfuel : bound + 1 ≤ fuel) (rew : ℕ → ℚ)
    (root : σ) (hroot : G.isTerminal root = false) :
    ∀ n, ∃ t, rollouts G uctSel fuel rew root n = RollRes.ok t ∧ MInv G root t n := by
  intro n
  induction n with
  | zero =>
      refine ⟨emptyTree, rfl, ?_⟩
      exact
        { kidsEq := by intro s hs; simp [emptyTree] at hs
          keyPos := by intro s hs; simp [emptyTree] at hs
          nonkeyZero := fun s _ => rfl
          rootN := rfl
          rootKey := by simp [emptyTree]
          zeroKeys := fun _ => rfl
          childSum := fun h => absurd h (by omega) }
  | succ n ih =>
      obtain ⟨t, ht, hInv⟩ := ih
      obtain ⟨t2, h2, hInv2⟩ :=
        do_rollout_step G bound hG uctSel huct fuel hfuel root hroot t n hInv (rew n)
      refine ⟨t2, ?_, hInv2⟩
      simp only [rollouts]
      rw [ht]
      exact h2

theorem selHead_mem : ∀ (t : MTree ℕ) (node : ℕ) (l : List ℕ), l ≠ [] → selHead t node l ∈ l := by
  intro t node l h
  cases l with
  | nil => exact absurd rfl h
  | cons a l2 => simp [selHead]

theorem tinyG_good : GoodGame tinyG 1 := by
  refine ⟨?_, ?_, ?_, ?_⟩
  · intro s
    by_cases h : s = 0 <;> simp [tinyG, h]
  · intro s c hc
    by_cases h : s = 0
    · rw [h] at hc ⊢
      simp only [tinyG] at hc ⊢
      simp at hc
      rcases hc with rfl | rfl <;> simp
    · simp [tinyG, h] at hc
  · intro s hs
    by_cases h : s = 0
    · rw [h] at hs
      simp [tinyG] at hs
    · simp [tinyG, h]
  · intro s
    by_cases h : s = 0 <;> simp [tinyG, h]

theorem tiny2G_good : GoodGame tiny2G 1 := by
  refine ⟨?_, ?_, ?_, ?_⟩
  · intro s
    by_cases h : s = 0 <;> simp [tiny2G, h]
  · intro s c hc
    by_cases h : s = 0
    · rw [h] at hc ⊢
      simp only [tiny2G] at hc ⊢
      simp at hc
      rw [hc]
      simp
    · simp [tiny2G, h] at hc
  · intro s hs
    by_cases h : s = 0
    · rw [h] at hs
      simp [tiny2G] at hs
    · simp [tiny2G, h]
  · intro s
    by_cases h : s = 0 <;> simp [tiny2G, h]

/-- C3 (amended).  Starting from a fresh MCTS tree and a non-terminal root
of a graded game, after `n` calls to `do_rollout(root)` the root's visit
count `N[root]` equals `n`; and once the root is a key of `children`, the
sum of `N[c]` over `c ∈ children[root]` equals `n - 1`, not `n`: the first
rollout's selection path is `[root]` alone (the root is still unexpanded),
so it increments no child, and every later rollout contributes exactly one
visit increment to exactly one element of `children[root]`. -/
theorem C3_rollout_counts {σ M : Type} [DecidableEq σ] (G : Game σ M) (bound : ℕ)
    (hG : GoodGame G bound)
    (uctSel : MTree σ → σ → List σ → σ)
    (huct : ∀ (t : MTree σ) (node : σ) (l : List σ), l ≠ [] → uctSel t node l ∈ l)
    (fuel : ℕ) (hfuel : bound + 1 ≤ fuel) (rew : ℕ → ℚ)
    (root : σ) (hroot : G.isTerminal root = false) (n : ℕ) :
    ∃ t, rollouts G uctSel fuel rew root n = RollRes.ok t ∧
      t.N root = n ∧
      (root ∈ t.keys → ((t.kids root).map t.N).sum = n - 1) := by
  obtain ⟨t, ht, hInv⟩ := rollouts_inv G bound hG uctSel huct fuel hfuel rew root hroot n
  refine ⟨t, ht, hInv.rootN, ?_⟩
  intro hk
  rw [hInv.kidsEq root hk]
  exact hInv.childSum (hInv.rootKey.mp hk)

/-- C3, counterexample.  After `n = 1` rollout from the fresh tree on the
two-move game `tinyG`, the root is a key of `children` and `N[root] = 1`,
but the sum of `N[c]` over `c ∈ children[root]` is `0`, not `n = 1`: the
first rollout's path is `[root]` alone, so no visit increment lands below
the root, refuting the claimed equality `sum = n`. -/
theorem C3_counterexample :
    c3obs (rollouts tinyG selHead 2 rewHalf 0 1) = some (1, 0, true) := by decide

/-- Witness for C3: the amended count equations on `tinyG` with a budget of
three rollouts. -/
theorem C3_witness :
    ∃ t, rollouts tinyG selHead 2 rewHalf 0 3 = RollRes.ok t ∧
      t.N 0 = 3 ∧ (0 ∈ t.keys → ((t.kids 0).map t.N).sum = 3 - 1) :=
  C3_rollout_counts tinyG 1 tinyG_good selHead selHead_mem 2 (by omega) rewHalf 0
    (by decide) 3

/-- C8 (confirmed).  During any sequence of `do_rollout` calls on a fresh
tree over a graded game, `_uct_select` never fails: the embedding returns a
failure exactly when one of the claim's conditions is violated (a child of
`children[node]` that is not itself a key, a considered child with
`N[c] = 0` — a division by zero in `Q[c]/N[c]` or `log N / N[c]` — or
`N[node] = 0`, which would make `log(N[node])` ill-defined), and the
rollout sequence always returns `ok`.  Moreover every key of the resulting
tree satisfies `N ≥ 1` and carries exactly `find_children` as its children
entry — the invariant that makes each `_uct_select` call safe. -/
theorem C8_uct_preconditions {σ M : Type} [DecidableEq σ] (G : Game σ M) (bound : ℕ)
    (hG : GoodGame G bound)
    (uctSel : MTree σ → σ → List σ → σ)
    (huct : ∀ (t : MTree σ) (node : σ) (l : List σ), l ≠ [] → uctSel t node l ∈ l)
    (fuel : ℕ) (hfuel : bound + 1 ≤ fuel) (rew : ℕ → ℚ)
    (root : σ) (hroot : G.isTerminal root = false) (n : ℕ) :
    ∃ t, rollouts G uctSel fuel rew root n = RollRes.ok t ∧
      (∀ s ∈ t.keys, 1 ≤ t.N s) ∧
      (∀ s ∈ t.keys, t.kids s = G.findChildren s) := by
  obtain ⟨t, ht, hInv⟩ := rollouts_inv G bound hG uctSel huct fuel hfuel rew root hroot n
  exact ⟨t, ht, hInv.keyPos, hInv.kidsEq⟩

/-- Witness for C8: five rollouts on `tinyG` return `ok` — no assert
failure, no `log(0)`, no division by zero. -/
theorem C8_witness :
    ∃ t, rollouts tinyG selHead 2 rewHalf 0 5 = RollRes.ok t ∧
      (∀ s ∈ t.keys, 1 ≤ t.N s) ∧
      (∀ s ∈ t.keys, t.kids s = tinyG.findChildren s) :=
  C8_uct_preconditions tinyG 1 tinyG_good selHead selHead_mem 2 (by omega) rewHalf 0
    (by decide) 5

/-- C6 (amended).  In any tree produced by rollouts on a graded game, for
every NON-terminal node that is a key of the children map, `choose(node)`
returns an element of `children[node]` maximizing the average reward
`Q[c]/N[c]`, where a child with `N[c] = 0` scores `-inf` and is never
preferred over a child visited at least once.  (For a terminal key —
reachable, since `_expand` stores an empty children entry for a terminal
leaf — `choose` raises instead; see the counterexample.) -/
theorem C6_choose_maximizes {σ M : Type} [DecidableEq σ] (G : Game σ M) (bound : ℕ)
    (hG : GoodGame G bound)
    (uctSel : MTree σ → σ → List σ → σ)
    (huct : ∀ (t : MTree σ) (node : σ) (l : List σ), l ≠ [] → uctSel t node l ∈ l)
    (fuel : ℕ) (hfuel : bound + 1 ≤ fuel) (rew : ℕ → ℚ)
    (root : σ) (hroot : G.isTerminal root = false) (n : ℕ) :
    ∃ t, rollouts G uctSel fuel rew root n = RollRes.ok t ∧
      ∀ node, node ∈ t.keys → G.isTerminal node = false →
        ∃ c, MCTS.choose G t node = ChooseRes.ok c ∧ c ∈ t.kids node ∧
          (∀ z ∈ t.kids node, chooseScore t z ≤ chooseScore t c) ∧
          (t.N c = 0 → ∀ z ∈ t.kids node, t.N z = 0) := by
  obtain ⟨t, ht, hInv⟩ := rollouts_inv G bound hG uctSel huct fuel hfuel rew root hroot n
  refine ⟨t, ht, ?_⟩
  intro node hk hnt
  have hkd : t.kids node = G.findChildren node := hInv.kidsEq node hk
  have hne : t.kids node ≠ [] := by
    rw [hkd]
    intro h
    have h2 := (hG.termIff node).mp h
    rw [hnt] at h2
    cases h2
  obtain ⟨c, hmax, hcmem, hle⟩ := pymaxKey_spec (chooseScore t) (t.kids node) hne
  refine ⟨c, ?_, hcmem, hle, ?_⟩
  · unfold MCTS.choose
    rw [if_neg (by rw [hnt]; exact Bool.false_ne_true), if_neg (not_not_intro hk), hmax]
  · intro hc0 z hz
    by_contra hz0
    have hsz : chooseScore t z = ((t.Q z / (t.N z : ℚ) : ℚ) : WithBot ℚ) := by
      unfold chooseScore
      rw [if_neg hz0]
    have hsc : chooseScore t c = ⊥ := by
      unfold chooseScore
      rw [if_pos hc0]
    have hzc := hle z hz
    rw [hsz, hsc] at hzc
    exact WithBot.not_coe_le_bot _ hzc

/-- C6, counterexample.  After two rollouts on `tiny2G` the terminal child
1 has been expanded: it is a key of the children map (with an empty
children entry).  `choose(1)` then raises the terminal-node error
(`ChooseRes.terminalErr`) instead of returning an element of
`children[1]` — the
claim, quantifying over every root that is a key of the children map, is
false for terminal keys. -/
theorem C6_counterexample : c6obs (rollouts tiny2G selHead 2 rewHalf 0 2) = true := by decide

/-- Witness for C6: the amended maximization property on the tree built by
two rollouts on `tiny2G`. -/
theorem C6_witness :
    ∃ t, rollouts tiny2G selHead 2 rewHalf 0 2 = RollRes.ok t ∧
      ∀ node, node ∈ t.keys → tiny2G.isTerminal node = false →
        ∃ c, MCTS.choose tiny2G t node = ChooseRes.ok c ∧ c ∈ t.kids node ∧
          (∀ z ∈ t.kids node, chooseScore t z ≤ chooseScore t c) ∧
          (t.N c = 0 → ∀ z ∈ t.kids node, t.N z = 0) :=
  C6_choose_maximizes tiny2G 1 tiny2G_good selHead selHead_mem 2 (by omega) rewHalf 0
    (by decide) 2

/-- C7 (code bug).  `choose` on a non-terminal node that was never
expanded (not a key of `children`) evaluates `node.find_random_child()` —
but no class in the repository defines that method: the `Node` abstract
base class of agent1.py and main.py replaced the original
`find_random_child` operation with `simulate`, and `ChessNode` does not
implement one of its own.  The call therefore raises `AttributeError`
instead of returning a uniformly-random legal successor as the claim
describes. -/
theorem C7_choose_missing_method {σ M : Type} [DecidableEq σ] (G : Game σ M)
    (t : MTree σ) (node : σ) (hterm : G.isTerminal node = false) (hnk : node ∉ t.keys) :
    MCTS.choose G t node = ChooseRes.attributeErr := by
  unfold MCTS.choose
  rw [if_neg (by rw [hterm]; exact Bool.false_ne_true), if_pos hnk]

/-- Witness for C7: `choose` on the fresh (empty) tree at the non-terminal
root of `tinyG` hits the missing-method branch. -/
theorem C7_witness :
    MCTS.choose tinyG emptyTree 0 = ChooseRes.attributeErr :=
  C7_choose_missing_method tinyG emptyTree 0 (by decide) (by decide)

/-- C4 (confirmed).  For every path of distinct states and every reward
`r`, `_backpropagate(path, r)` increments `N[v]` by exactly 1 for each `v`
on the path, and adds to `Q[v]` the alternating values `r, 1-r, r, …`
starting with `r` at the leaf: the node at distance `j` from the leaf (the
source iterates `reversed(path)`) receives `r` for even `j` and `1 - r`
for odd `j`, the reward being inverted once per ply toward the root. -/
theorem C4_backpropagate_alternates {σ : Type} [DecidableEq σ] (t : MTree σ)
    (path : List σ) (r : ℚ) (hnd : path.Nodup) (j : ℕ) (hj : j < path.length) :
    (backprop t path r).N (path.reverse.get ⟨j, by simpa using hj⟩)
      = t.N (path.reverse.get ⟨j, by simpa using hj⟩) + 1 ∧
    (backprop t path r).Q (path.reverse.get ⟨j, by simpa using hj⟩)
      = t.Q (path.reverse.get ⟨j, by simpa using hj⟩) + (if j % 2 = 0 then r else 1 - r) := by
  have hrnd : path.reverse.Nodup := by simpa using hnd
  have hj2 : j < path.reverse.length := by simpa using hj
  constructor
  · rw [backprop, backpropAux_N path.reverse hrnd t r _,
      if_pos (path.reverse.get_mem j (by simpa using hj))]
  · exact backpropAux_Q_get path.reverse hrnd t r j hj2

/-- Witness for C4: the increments on the concrete path `[5, 6, 7]` with
reward 1/3 at the middle node (distance 1 from the leaf, reward `1 - 1/3`). -/
theorem C4_witness :
    (backprop (emptyTree : MTree ℕ) [5, 6, 7] (1/3)).N ([5, 6, 7].reverse.get ⟨1, by decide⟩)
      = (emptyTree : MTree ℕ).N ([5, 6, 7].reverse.get ⟨1, by decide⟩) + 1 ∧
    (backprop (emptyTree : MTree ℕ) [5, 6, 7] (1/3)).Q ([5, 6, 7].reverse.get ⟨1, by decide⟩)
      = (emptyTree : MTree ℕ).Q ([5, 6, 7].reverse.get ⟨1, by decide⟩)
        + (if 1 % 2 = 0 then (1/3 : ℚ) else 1 - 1/3) :=
  C4_backpropagate_alternates emptyTree [5, 6, 7] (1/3) (by decide) 1 (by decide)

/-- C2 (amended).  With exactly one legal move: (1) agent1's `TyBot.move`
returns that move at once for every rollout budget, building no search tree
at all (second component `none`); (2) agent2's `TyBotNM.move` returns
`(69420, that move)` with zero positions examined, for every depth; but
(3) main.py's `TyBot.move` has no short-circuit — it always runs the timed
search (second component is always a search run), and when the budget is
zero `choose` hits the unexpanded root and raises `AttributeError`
(`find_random_child` is defined by no class), so no move is returned at
all; (4) with a budget of at least one rollout it does return the single
legal move, via the maximization over the root's lone recorded child. -/
theorem C2_single_move_short_circuit :
    (∀ {σ M : Type} [inst : DecidableEq σ] (G : Game σ M)
        (uctSel : MTree σ → σ → List σ → σ) (fuel : ℕ) (rew : ℕ → ℚ)
        (b : σ) (m : M), G.legalMoves b = [m] →
        ∀ n, TyBot.move G uctSel fuel rew b n = (some m, none)) ∧
    (∀ {β M : Type} (g : NegaGame β M) (b : β) (m : M), g.legalMoves b = [m] →
        ∀ depth, TyBotNM.move g depth b = ⟨69420, [m], 0⟩) ∧
    (∀ {σ M : Type} [inst : DecidableEq σ] (G : Game σ M)
        (uctSel : MTree σ → σ → List σ → σ) (fuel : ℕ) (rew : ℕ → ℚ)
        (b : σ), G.isTerminal b = false →
        (TyBot.moveMain G uctSel fuel rew b 0).1 = none ∧
        ∀ n, (TyBot.moveMain G uctSel fuel rew b n).2 ≠ none) ∧
    (∀ {σ M : Type} [inst : DecidableEq σ] (G : Game σ M) (bound : ℕ),
        GoodGame G bound →
        ∀ (uctSel : MTree σ → σ → List σ → σ),
        (∀ (t : MTree σ) (node : σ) (l : List σ), l ≠ [] → uctSel t node l ∈ l) →
        ∀ (fuel : ℕ), bound + 1 ≤ fuel → ∀ (rew : ℕ → ℚ) (b c : σ) (m : M),
        G.isTerminal b = false → G.findChildren b = [c] → G.lastMove c = m →
        ∀ n, 1 ≤ n → (TyBot.moveMain G uctSel fuel rew b n).1 = some m) := by
  refine ⟨?_, ?_, ?_, ?_⟩
  · intro σ M inst G uctSel fuel rew b m hlen n
    simp [TyBot.move, hlen]
  · intro β M g b m hlen depth
    simp [TyBotNM.move, hlen]
  · intro σ M inst G uctSel fuel rew b hterm
    constructor
    · simp [TyBot.moveMain, monte_carlo_tree_search, rollouts, MCTS.choose, hterm,
        emptyTree]
    · intro n
      cases h : rollouts G uctSel fuel rew b n <;>
        simp [TyBot.moveMain, monte_carlo_tree_search, h]
  · intro σ M inst G bound hG uctSel huct fuel hfuel rew b c m hterm hkids hlast n hn
    obtain ⟨t, ht, hInv⟩ := rollouts_inv G bound hG uctSel huct fuel hfuel rew b hterm n
    have hk : b ∈ t.keys := hInv.rootKey.mpr hn
    have hkd : t.kids b = [c] := by rw [hInv.kidsEq b hk, hkids]
    have hch : MCTS.choose G t b = ChooseRes.ok c := by
      unfold MCTS.choose
      rw [if_neg (by rw [hterm]; exact Bool.false_ne_true), if_neg (not_not_intro hk), hkd]
      simp [pymaxKey]
    simp [TyBot.moveMain, monte_carlo_tree_search, ht, hch, hlast]

/-- C2, counterexample.  On `tiny2G` the root has exactly one legal move
(101), yet main.py's `TyBot.move` (cited by the claim) with a budget of one
rollout performs the search anyway: the tree it builds records `N[root] = 1`
— one full rollout ran — before the move is returned.  This refutes
"both strategies return that single move immediately, without running any
search": the main.py variant has no short-circuit. -/
theorem C2_counterexample :
    tiny2G.legalMoves 0 = [101] ∧
    (TyBot.moveMain tiny2G selHead 2 rewHalf 0 1).1 = some 101 ∧
    c2obs (TyBot.moveMain tiny2G selHead 2 rewHalf 0 1).2 = 1 := by decide

/-- Witness for C2: the amended statement at concrete games — the agent1
and agent2 short-circuits on one-move positions; main.py's variant always
running its search, raising at budget zero (no move returned), and
returning the single legal move at budget one. -/
theorem C2_witness :
    TyBot.move tiny2G selHead 2 rewHalf 0 5 = (some 101, none) ∧
    TyBotNM.move oneMoveNG 4 0 = ⟨69420, [7], 0⟩ ∧
    (TyBot.moveMain tiny2G selHead 2 rewHalf 0 0).1 = none ∧
    (TyBot.moveMain tiny2G selHead 2 rewHalf 0 1).2 ≠ none ∧
    (TyBot.moveMain tiny2G selHead 2 rewHalf 0 1).1 = some 101 :=
  ⟨C2_single_move_short_circuit.1 tiny2G selHead 2 rewHalf 0 101 (by decide) 5,
   C2_single_move_short_circuit.2.1 oneMoveNG 0 7 (by decide) 4,
   (C2_single_move_short_circuit.2.2.1 tiny2G selHead 2 rewHalf 0 (by decide)).1,
   (C2_single_move_short_circuit.2.2.1 tiny2G selHead 2 rewHalf 0 (by decide)).2 1,
   C2_single_move_short_circuit.2.2.2 tiny2G 1 tiny2G_good selHead selHead_mem 2
     (by omega) rewHalf 0 1 101 (by decide) (by decide) (by decide) 1 (by omega)⟩
